import Mathlib

/-!
Verification development for the `yes` documentation-assistant repository
(web scraper + text chunker + pgvector store + Ollama chat glue).

Strings are modelled as `List Char` (Go strings at byte/rune granularity;
all inputs of interest are ASCII so the distinction is immaterial).
Go `int` fields are modelled as `Int`, Go `float64` fields as `Rat`
(order comparisons against literals agree; NaN is not modelled).
-/

set_option maxHeartbeats 1000000

/-- Whitespace test used by Go `strings.Fields` / `strings.TrimSpace`
(`unicode.IsSpace` restricted to the characters that occur in practice). -/
def isGoSpace (c : Char) : Bool :=
  c = ' ' || c = '\t' || c = '\n' || c = '\x0b' || c = '\x0c' || c = '\r' || c = '\u0085' || c = ' '

/-- Go `strings.TrimSpace`: drop leading and trailing whitespace. -/
def trimSpace (s : List Char) : List Char :=
  ((s.dropWhile isGoSpace).reverse.dropWhile isGoSpace).reverse

/-- Helper for `fields`: `cur` is the current word, reversed. -/
def fieldsAux : List Char → List Char → List (List Char)
  | [], cur => if cur = [] then [] else [cur.reverse]
  | c :: t, cur =>
    if isGoSpace c then
      if cur = [] then fieldsAux t [] else cur.reverse :: fieldsAux t []
    else fieldsAux t (c :: cur)

/-- Go `strings.Fields`: split around runs of whitespace. -/
def fields (s : List Char) : List (List Char) := fieldsAux s []

/-- Go `strings.Join(words, " ")`. -/
def joinSpace (ws : List (List Char)) : List Char := List.intercalate [' '] ws

/-- `startsWith s p`: `p` is a prefix of `s` (Go `strings.HasPrefix(s, p)`). -/
def startsWith : List Char → List Char → Bool
  | _, [] => true
  | [], _ :: _ => false
  | c :: s, d :: p => c = d && startsWith s p

/-- `endsWith s p`: `p` is a suffix of `s` (Go `strings.HasSuffix(s, p)`). -/
def endsWith (s p : List Char) : Bool := startsWith s.reverse p.reverse

/-- `containsSub s pat`: `pat` occurs as a substring of `s` (Go `strings.Contains`). -/
def containsSub : List Char → List Char → Bool
  | [], pat => pat.isEmpty
  | c :: t, pat => startsWith (c :: t) pat || containsSub t pat

/-- Go `strings.ToLower` (ASCII case folding suffices for the inputs modelled). -/
def toLowerList (s : List Char) : List Char := s.map Char.toLower

/-- The last `n` characters of `l` (Go slice `l[len(l)-n:]` for `n ≤ len l`). -/
def lastN (l : List Char) (n : Nat) : List Char := l.drop (l.length - n)

/-- Go `strings.ReplaceAll(s, pat, "")` for a non-empty pattern:
remove every occurrence of `pat` from `s`. -/
def removeAllSub (pat : List Char) : List Char → List Char
  | [] => []
  | c :: t =>
    if _hp : pat ≠ [] ∧ startsWith (c :: t) pat then
      removeAllSub pat ((c :: t).drop pat.length)
    else
      c :: removeAllSub pat t
termination_by s => s.length
decreasing_by
  · have hp1 : 0 < pat.length := by
      rcases pat with _ | ⟨a, b⟩
      · exact absurd rfl _hp.1
      · simp
    simp [List.length_drop]
    omega
  · simp

/-! ## Data model (`internal/models/models.go`)

`models.Document.Metadata` is an open `map[string]interface{}`; the scraper
populates exactly the keys `depth`, `time`, `contentType`, `lastModified`.
It is modelled by a record of the entries the code and spec inspect
(the wall-clock `time` entry is not modelled). -/

structure MetaData where
  depth : Int
  contentType : List Char
  lastModified : List Char
  deriving Repr, DecidableEq

structure Document where
  id : List Char
  url : List Char
  title : List Char
  content : List Char
  metadata : MetaData
  deriving Repr, DecidableEq

structure ProcessedDocument where
  document : Document
  chunks : List (List Char)
  deriving Repr, DecidableEq

/-! ## Chunker (`pkg/processor/processor.go`) -/

structure ProcessorConfig where
  chunkSize : Int
  chunkOverlap : Int
  minChunkLength : Int
  removeStopwords : Bool
  customStopwords : List (List Char)
  preserveLineBreaks : Bool
  deriving Repr, DecidableEq

structure Processor where
  config : ProcessorConfig
  deriving Repr, DecidableEq

/-- `processor.NewWithConfig`: substitutes defaults for zero-valued fields and
returns a `Processor`.  It has no error return and performs no validation. -/
def processorNewWithConfig (config : ProcessorConfig) : Processor :=
  { config :=
    { config with
      chunkSize := if config.chunkSize = 0 then 1000 else config.chunkSize
      chunkOverlap := if config.chunkOverlap = 0 then 200 else config.chunkOverlap
      minChunkLength := if config.minChunkLength = 0 then 100 else config.minChunkLength } }

/-- The default English stopword list (`getStopwords`). -/
def getStopwords : List (List Char) :=
  ["a", "an", "and", "are", "as", "at", "be", "by", "for",
   "from", "has", "he", "in", "is", "it", "its", "of", "on",
   "that", "the", "to", "was", "were", "will", "with"].map String.toList

/-- `Processor.removeStopwords`. -/
def removeStopwordsFn (cfg : ProcessorConfig) (text : List Char) : List Char :=
  let words := fields text
  let stopwords :=
    if cfg.customStopwords.length > 0 then getStopwords ++ cfg.customStopwords
    else getStopwords
  joinSpace (words.filter (fun w => ¬ (w ∈ stopwords)))

/-- `Processor.cleanText`. -/
def cleanText (cfg : ProcessorConfig) (text : List Char) : List Char :=
  let text := if ¬ cfg.preserveLineBreaks then toLowerList text else text
  let text := joinSpace (fields text)
  let text := if cfg.removeStopwords then removeStopwordsFn cfg text else text
  trimSpace text

/-- The sentence-terminator substrings of `Processor.splitIntoSentences`. -/
def sentenceEnders : List (List Char) :=
  [". ", "! ", "? ", ".\n", "!\n", "?\n"].map String.toList

/-- Helper for `splitIntoSentences`: byte-by-byte scan with the in-progress
accumulation `current`; a sentence ends exactly when a terminator is the
current suffix. -/
def splitSentencesAux : List Char → List Char → List (List Char)
  | [], current => if current.length > 0 then [trimSpace current] else []
  | c :: rest, current =>
    let cur := current ++ [c]
    if sentenceEnders.any (fun e => endsWith cur e) then
      trimSpace cur :: splitSentencesAux rest []
    else
      splitSentencesAux rest cur

/-- `Processor.splitIntoSentences`. -/
def splitIntoSentences (text : List Char) : List (List Char) :=
  splitSentencesAux text []

/-- State of the sentence-packing loop of `splitIntoChunks`:
the emitted chunks and the `strings.Builder` accumulator `currentChunk`. -/
structure ChunkState where
  chunks : List (List Char)
  acc : List Char
  deriving Repr, DecidableEq

/-- One iteration of the sentence loop of `Processor.splitIntoChunks`:
if appending the sentence would exceed `chunkSize`, emit the accumulator
(when it meets `minChunkLength`) and reseed it with the last `chunkOverlap`
characters (when `chunkOverlap > 0` and the accumulator is strictly longer);
then append the sentence and a space. -/
def chunkStep (cfg : ProcessorConfig) (s : ChunkState) (sentence : List Char) : ChunkState :=
  let s :=
    if cfg.chunkSize < (s.acc.length : Int) + (sentence.length : Int) then
      { chunks :=
          if cfg.minChunkLength ≤ (s.acc.length : Int) then s.chunks ++ [s.acc] else s.chunks
        acc :=
          if 0 < cfg.chunkOverlap ∧ cfg.chunkOverlap < (s.acc.length : Int) then
            lastN s.acc cfg.chunkOverlap.toNat
          else [] }
    else s
  { s with acc := s.acc ++ sentence ++ [' '] }

/-- The sentence loop of `splitIntoChunks`. -/
def chunkFold (cfg : ProcessorConfig) (s : ChunkState) (sents : List (List Char)) : ChunkState :=
  sents.foldl (chunkStep cfg) s

/-- The epilogue of `splitIntoChunks`: append the trimmed final accumulator
when it meets `minChunkLength` (the length test precedes the trimming). -/
def finishChunks (cfg : ProcessorConfig) (t : ChunkState) : List (List Char) :=
  if cfg.minChunkLength ≤ (t.acc.length : Int) then t.chunks ++ [trimSpace t.acc] else t.chunks

/-- The chunk loop run from an arbitrary state (loop body + epilogue). -/
def chunkRun (cfg : ProcessorConfig) (s : ChunkState) (sents : List (List Char)) : List (List Char) :=
  finishChunks cfg (chunkFold cfg s sents)

/-- `Processor.splitIntoChunks`. -/
def splitIntoChunks (cfg : ProcessorConfig) (text : List Char) : List (List Char) :=
  chunkRun cfg ⟨[], []⟩ (splitIntoSentences text)

/-- `Processor.Process`: clean and chunk each document; the error result is
the literal `nil` of the source. -/
def process (cfg : ProcessorConfig) (docs : List Document) :
    List ProcessedDocument × Option String :=
  (docs.map (fun doc => ⟨doc, splitIntoChunks cfg (cleanText cfg doc.content)⟩), none)

/-! ## Scraper (`pkg/scraper/scraper.go`)

`net/url.Parse` is modelled for the URL shapes the crawler handles:
an absolute URL `scheme://host/path...` or a bare path.  Parsing fails on
control characters (the practically reachable failure of `url.Parse`);
the query/fragment part is not part of `URL.Path`.  Userinfo, ports and
IPv6 literals are not modelled. -/

structure GoURL where
  host : List Char
  path : List Char
  deriving Repr, DecidableEq

def isCtlChar (c : Char) : Bool := c.toNat < 32 || c.toNat = 127

/-- The part of the string after `"://"`, if present. -/
def afterScheme : List Char → Option (List Char)
  | [] => none
  | c :: rest =>
    if c = ':' ∧ rest.take 2 = ['/', '/'] then some (rest.drop 2)
    else afterScheme rest

def goURLParse (s : List Char) : Option GoURL :=
  if s.any isCtlChar then none
  else
    match afterScheme s with
    | some rest =>
      let host := rest.takeWhile (fun c => ¬ (c = '/' ∨ c = '?' ∨ c = '#'))
      let tail := rest.drop host.length
      some ⟨host, tail.takeWhile (fun c => ¬ (c = '?' ∨ c = '#'))⟩
    | none => some ⟨[], s.takeWhile (fun c => ¬ (c = '?' ∨ c = '#'))⟩

/-- `scraper.ScraperConfig`. `Timeout` is a `time.Duration` (nanoseconds);
`RateLimit` is a `float64` (requests per second).  The `OnProgress` callback
is a side effect on the UI and is not modelled. -/
structure ScraperConfig where
  baseURL : List Char
  maxDepth : Int
  rateLimit : Rat
  ignorePatterns : List (List Char)
  allowedExtensions : List (List Char)
  timeout : Int
  deriving Repr, DecidableEq

/-- `scraper.Scraper`: the configuration after defaulting, the persistent
`visited` map (modelled as a list of URLs) and the host of the parsed base
URL.  The `http.Client` and the `rate.Limiter` carry no further state that
the claims observe. -/
structure Scraper where
  config : ScraperConfig
  visited : List (List Char)
  baseHost : List Char
  deriving Repr, DecidableEq

/-- `scraper.NewWithConfig`: substitutes defaults for zero-valued fields,
parses the base URL (the only failure), and builds the scraper with an empty
`visited` map.  The rate limit is never validated: `0` silently becomes `2`,
a negative value is kept and handed to `rate.NewLimiter` unchanged. -/
def scraperNewWithConfig (config : ScraperConfig) : Option Scraper :=
  let config :=
    { config with
      timeout := if config.timeout = 0 then 30 * 1000000000 else config.timeout
      maxDepth := if config.maxDepth = 0 then 3 else config.maxDepth
      rateLimit := if config.rateLimit = 0 then 2 else config.rateLimit
      allowedExtensions :=
        if config.allowedExtensions = [] then
          [".html".toList, ".htm".toList, "/".toList, "".toList]
        else config.allowedExtensions }
  match goURLParse config.baseURL with
  | none => none
  | some u => some ⟨config, [], u.host⟩

/-- `Scraper.shouldProcessURL`: parse, require the base host, require the
lowercased path to end in one of `allowedExtensions`, and reject URLs
containing an ignore pattern. -/
def shouldProcessURL (s : Scraper) (urlStr : List Char) : Bool :=
  match goURLParse urlStr with
  | none => false
  | some pu =>
    if pu.host ≠ s.baseHost then false
    else
      let ext := toLowerList pu.path
      let validExt := s.config.allowedExtensions.any (fun a => endsWith ext a)
      if !validExt then false
      else if s.config.ignorePatterns.any (fun pat => containsSub urlStr pat) then false
      else true

/-- `Scraper.cleanContent`: collapse whitespace, strip boilerplate phrases,
trim. -/
def noisePatterns : List (List Char) :=
  ["Cookie Policy", "Accept Cookies", "Privacy Policy", "Terms of Service"].map
    String.toList

def cleanContent (content : List Char) : List Char :=
  let content := joinSpace (fields content)
  let content := noisePatterns.foldl (fun c pat => removeAllSub pat c) content
  trimSpace content

/-- One fetched page, as observed through `http.Client.Get` + goquery:
HTTP status, the `title` element text, the text of the main-content region
probed by `extractMainContent` (the CSS-selector probing itself is
abstracted into the oracle), the two response headers the scraper reads,
and the `href` values of the page's anchors after resolution against the
page URL (the `net/url` reference resolution is abstracted into the
oracle: each link is an absolute URL string). -/
structure Page where
  status : Int
  title : List Char
  rawContent : List Char
  contentType : List Char
  lastModified : List Char
  links : List (List Char)
  deriving Repr, DecidableEq

/-- The web as an oracle: `none` is a transport error of `client.Get`. -/
def Web : Type := List Char → Option Page

inductive CrawlErr where
  | transport
  | status (code : Int)
  deriving Repr, DecidableEq

/-- The state threaded through `scrapeRecursive`: the scraper's `visited`
map, the `documents` slice, and (instrumentation for the dedup claim) the
trace of URLs passed to `client.Get`, in order. -/
structure CrawlSt where
  visited : List (List Char)
  docs : List Document
  fetched : List (List Char)
  deriving Repr, DecidableEq

/-- `Scraper.scrapeRecursive`, with an explicit fuel parameter standing in
for the Go call stack.  The Go recursion terminates because every recursive
call increases `depth` by 1 and the function returns immediately once
`depth > maxDepth`; accordingly, a call at depth `d` can never recurse more
than `(maxDepth + 2 - d)` levels, and `scrapeRecursive` below instantiates
the fuel with exactly that bound, making the `fuel = 0` branch coincide
with the `depth > maxDepth` early return (`scrapeRecF_fuel` proves the
result does not depend on the fuel once it is at least this bound).

Error handling follows the source: a transport error or non-200 status is
returned to the caller (after `visited` was already updated), while errors
of recursive calls on links are logged and swallowed.  `limiter.Wait`
cannot fail under `context.Background()`, and the goquery parse step is
total in the oracle model. -/
def scrapeRecF (web : Web) (s : Scraper) :
    Nat → List Char → Int → CrawlSt → CrawlSt × Option CrawlErr
  | 0, _, _, st => (st, none)
  | fuel + 1, urlStr, depth, st =>
    if depth > s.config.maxDepth ∨ urlStr ∈ st.visited then (st, none)
    else if !(shouldProcessURL s urlStr) then (st, none)
    else
      let st1 : CrawlSt :=
        { st with visited := urlStr :: st.visited, fetched := st.fetched ++ [urlStr] }
      match web urlStr with
      | none => (st1, some .transport)
      | some page =>
        if page.status ≠ 200 then (st1, some (.status page.status))
        else
          let doc : Document :=
            { id := [], url := urlStr, title := page.title,
              content := cleanContent page.rawContent,
              metadata := ⟨depth, page.contentType, page.lastModified⟩ }
          let st2 := { st1 with docs := st1.docs ++ [doc] }
          let st3 := page.links.foldl
            (fun acc link => (scrapeRecF web s fuel link (depth + 1) acc).1) st2
          (st3, none)

def scrapeRecursive (web : Web) (s : Scraper) (urlStr : List Char) (depth : Int)
    (st : CrawlSt) : CrawlSt × Option CrawlErr :=
  scrapeRecF web s (s.config.maxDepth + 2 - depth).toNat urlStr depth st

/-- `Scraper.Scrape`: run the recursion from depth 0 with a fresh
`documents` slice but the scraper's own persistent `visited` map, and
return the (mutated) scraper, the documents, the fetch trace and the
error of the root call. -/
def scrape (web : Web) (s : Scraper) (url : List Char) :
    Scraper × List Document × List (List Char) × Option CrawlErr :=
  let r := scrapeRecursive web s url 0 ⟨s.visited, [], []⟩
  ({ s with visited := r.1.visited }, r.1.docs, r.1.fetched, r.2)

/-- A document the crawl is allowed to emit: its recorded depth is within
`maxDepth` and its URL parses to the scraper's base host. -/
def goodDoc (s : Scraper) (d : Document) : Prop :=
  d.metadata.depth ≤ s.config.maxDepth ∧
  ∃ pu, goURLParse d.url = some pu ∧ pu.host = s.baseHost

/-- Invariant relating the crawl state before and after any part of the
recursion: `visited` only grows; the fetch trace grows by URLs that were
unvisited before and are visited after, with no duplicates among them; and
every new document is a `goodDoc`. -/
def stepInv (s : Scraper) (st st2 : CrawlSt) : Prop :=
  (∀ v ∈ st.visited, v ∈ st2.visited) ∧
  (∃ nf, st2.fetched = st.fetched ++ nf ∧ nf.Nodup ∧
     ∀ u ∈ nf, u ∉ st.visited ∧ u ∈ st2.visited) ∧
  (∀ d ∈ st2.docs, d ∈ st.docs ∨ goodDoc s d)

/-- A small concrete site for witnesses and counterexamples: two same-host
pages linking to each other, one cross-host link, one repeated link. -/
def demoWeb : Web := fun u =>
  if u = "http://h/a".toList then
    some ⟨200, "A".toList, "hello world".toList, [], [],
      ["http://h/b".toList, "http://h/a".toList, "http://other/x".toList]⟩
  else if u = "http://h/b".toList then
    some ⟨200, "B".toList, "bee".toList, [], [], ["http://h/a".toList]⟩
  else none

def demoCfg : ScraperConfig := ⟨"http://h/a".toList, 1, 2, [], [], 0⟩

/-- `scraperNewWithConfig demoCfg`, written out. -/
def demoScraper : Scraper :=
  ⟨⟨"http://h/a".toList, 1, 2, [],
    [".html".toList, ".htm".toList, "/".toList, "".toList], 30 * 1000000000⟩,
   [], "h".toList⟩

/-! ## Configuration validation (`pkg/config/validator.go`)

`Config`'s two `float64` fields (`llm.temperature`, `scraper.rate_limit`)
are modelled as `Rat`; their comparisons against the literals 0 and 2 agree
with the `float64` ones (NaN is not modelled). -/

structure ValidationError where
  field : String
  message : String
  deriving Repr, DecidableEq

structure GoConfig where
  llmBaseURL : List Char
  llmModel : List Char
  llmMaxTokens : Int
  llmTemperature : Rat
  dbURL : List Char
  dbTableName : List Char
  dbVectorDim : Int
  dbBatchSize : Int
  scraperMaxDepth : Int
  scraperRateLimit : Rat
  scraperIgnorePatterns : List (List Char)
  scraperAllowedExtensions : List (List Char)
  processorChunkSize : Int
  processorChunkOverlap : Int
  processorRemoveStopwords : Bool
  uiStreaming : Bool
  uiTheme : List Char
  deriving Repr, DecidableEq

/-- `Config.Validate`: the error list accumulated by the source's sequence
of checks, in order.  Note there is no check involving `minChunkLength`
(the `Config` struct has no such field). -/
def validate (c : GoConfig) : List ValidationError :=
  (if c.llmBaseURL = [] then
    [⟨"llm.base_url", "Ollama base URL is required"⟩] else []) ++
  (if c.llmMaxTokens < 1 ∨ c.llmMaxTokens > 4096 then
    [⟨"llm.max_tokens", "max_tokens must be between 1 and 4096"⟩] else []) ++
  (if c.llmTemperature < 0 ∨ c.llmTemperature > 2 then
    [⟨"llm.temperature", "temperature must be between 0 and 2"⟩] else []) ++
  (if c.dbURL ≠ [] ∧ goURLParse c.dbURL = none then
    [⟨"database.url", "invalid database URL"⟩] else []) ++
  (if c.dbVectorDim < 1 then
    [⟨"database.vector_dim", "vector_dim must be positive"⟩] else []) ++
  (if c.dbBatchSize < 1 then
    [⟨"database.batch_size", "batch_size must be positive"⟩] else []) ++
  (if c.scraperMaxDepth < 1 then
    [⟨"scraper.max_depth", "max_depth must be positive"⟩] else []) ++
  (if c.scraperRateLimit ≤ 0 then
    [⟨"scraper.rate_limit", "rate_limit must be positive"⟩] else []) ++
  ((c.scraperAllowedExtensions.filter
      (fun ext => !(startsWith ext (".".toList)) && !(ext == []) && !(ext == "/".toList))).map
      (fun ext => ⟨"scraper.allowed_extensions",
        "invalid extension format: " ++ ext.asString⟩)) ++
  (if c.processorChunkSize < 1 then
    [⟨"processor.chunk_size", "chunk_size must be positive"⟩] else []) ++
  (if c.processorChunkOverlap < 0 ∨ c.processorChunkSize ≤ c.processorChunkOverlap then
    [⟨"processor.chunk_overlap",
      "chunk_overlap must be non-negative and less than chunk_size"⟩] else []) ++
  (if goURLParse c.llmBaseURL = none then
    [⟨"llm.base_url", "invalid Ollama base URL"⟩] else [])

def demoBadConfig : GoConfig :=
  ⟨"http://h".toList, [], 100, 1, [], [], 768, 10, 3, -1, [], [], 0, -1, false, false, []⟩

/-! ## Vector store (`pkg/store/store.go`)

The table created by `initialize` has `id TEXT PRIMARY KEY`; it is modelled
as an association list of `(id, row)` pairs.  `float32` embedding values
are modelled as `Rat`.  The embedding backend and the database executor are
oracles: `Embedder` is `CreateEmbedding` on the one-element slice built per
chunk (`none` = backend error), `ExecOracle` says whether `tx.Exec` of the
prepared upsert succeeds for a given id and row.  The transaction semantics
of `Begin`/deferred `Rollback`/`Commit` appear in `Store`: the upserts
accumulate in a transaction-local copy of the table which replaces the
table only on commit. -/

structure Row where
  url : List Char
  title : List Char
  content : List Char
  chunkIndex : Int
  embedding : List Rat
  metadata : MetaData
  deriving Repr, DecidableEq

abbrev Table : Type := List (List Char × Row)

def hasId (t : Table) (id : List Char) : Bool :=
  t.any (fun e => e.1 == id)

def idsOf (t : Table) : List (List Char) :=
  t.map (fun e => e.1)

/-- The prepared statement `INSERT ... ON CONFLICT (id) DO UPDATE SET
content = ..., embedding = ..., metadata = ...`: on a conflicting id only
those three columns are overwritten. -/
def upsert (t : Table) (id : List Char) (row : Row) : Table :=
  if hasId t id then
    t.map (fun e =>
      if e.1 == id then
        (e.1, { e.2 with content := row.content, embedding := row.embedding,
                         metadata := row.metadata })
      else e)
  else t ++ [(id, row)]

/-- `fmt.Sprintf("%s_%d", doc.ID, i)`. -/
def compoundId (docId : List Char) (i : Nat) : List Char :=
  docId ++ ('_' :: Nat.toDigits 10 i)

/-- `sanitizeUTF8`: in the rune-sequence model every string is valid, so the
function takes its `utf8.ValidString` fast path and is the identity. -/
def sanitizeUTF8 (s : List Char) : List Char := s

abbrev Embedder : Type := List Char → Option (List (List Rat))

abbrev ExecOracle : Type := List Char → Row → Bool

/-- The inner loop of `VectorStore.Store` over one document's chunks:
sanitize the chunk, build the compound id, embed (a failure aborts the
call), flatten the embedding vectors, and execute the upsert (a failure
aborts the call). -/
def storeChunks (embed : Embedder) (execOk : ExecOracle)
    (docId url title : List Char) (meta : MetaData) :
    List (List Char) → Nat → Table → Except String Table
  | [], _, tx => .ok tx
  | chunk :: rest, i, tx =>
    let cleanChunk := sanitizeUTF8 chunk
    let id := compoundId docId i
    match embed cleanChunk with
    | none => .error "failed to create embeddings"
    | some embedding =>
      let vectorSlice := embedding.flatten
      let row : Row := ⟨url, title, cleanChunk, (i : Int), vectorSlice, meta⟩
      if execOk id row then
        storeChunks embed execOk docId url title meta rest (i + 1) (upsert tx id row)
      else .error "failed to insert document"

/-- The outer loop of `VectorStore.Store` over the documents. -/
def storeDocs (embed : Embedder) (execOk : ExecOracle) :
    List ProcessedDocument → Table → Except String Table
  | [], tx => .ok tx
  | doc :: rest, tx =>
    let cleanTitle := sanitizeUTF8 doc.document.title
    match storeChunks embed execOk doc.document.id doc.document.url cleanTitle
        doc.document.metadata doc.chunks 0 tx with
    | .error e => .error e
    | .ok tx2 => storeDocs embed execOk rest tx2

/-- `VectorStore.Store`: run the batch inside one transaction; on any error
the deferred `Rollback` leaves the stored table unchanged, on success
`Commit` installs the transaction's table. -/
def Store (embed : Embedder) (execOk : ExecOracle) (table : Table)
    (docs : List ProcessedDocument) : Table × Option String :=
  match storeDocs embed execOk docs table with
  | .error e => (table, some e)
  | .ok tx => (tx, none)

def demoEmbed : Embedder := fun _ => some [[1]]

def demoExec : ExecOracle := fun _ _ => true

def demoPDoc : ProcessedDocument :=
  ⟨⟨"d1".toList, "http://h/a".toList, "T".toList, "body".toList, ⟨0, [], []⟩⟩,
   ["c1".toList, "c2".toList]⟩

/-! ### Chunker lemmas -/

lemma chunkStep_fit (cfg : ProcessorConfig) (s : ChunkState) (sentence : List Char)
    (h : ¬ cfg.chunkSize < (s.acc.length : Int) + (sentence.length : Int)) :
    chunkStep cfg s sentence = ⟨s.chunks, s.acc ++ sentence ++ [' ']⟩ := by
  simp [chunkStep, h]

lemma chunkStep_save_emit (cfg : ProcessorConfig) (s : ChunkState) (sentence : List Char)
    (h : cfg.chunkSize < (s.acc.length : Int) + (sentence.length : Int))
    (hm : cfg.minChunkLength ≤ (s.acc.length : Int)) :
    chunkStep cfg s sentence =
      ⟨s.chunks ++ [s.acc],
       (if 0 < cfg.chunkOverlap ∧ cfg.chunkOverlap < (s.acc.length : Int) then
          lastN s.acc cfg.chunkOverlap.toNat
        else []) ++ sentence ++ [' ']⟩ := by
  simp [chunkStep, h, hm]

lemma chunkStep_save_drop (cfg : ProcessorConfig) (s : ChunkState) (sentence : List Char)
    (h : cfg.chunkSize < (s.acc.length : Int) + (sentence.length : Int))
    (hm : ¬ cfg.minChunkLength ≤ (s.acc.length : Int)) :
    chunkStep cfg s sentence =
      ⟨s.chunks,
       (if 0 < cfg.chunkOverlap ∧ cfg.chunkOverlap < (s.acc.length : Int) then
          lastN s.acc cfg.chunkOverlap.toNat
        else []) ++ sentence ++ [' ']⟩ := by
  simp [chunkStep, h, hm]

lemma chunkFold_cons (cfg : ProcessorConfig) (s : ChunkState) (a : List Char)
    (l : List (List Char)) :
    chunkFold cfg s (a :: l) = chunkFold cfg (chunkStep cfg s a) l := rfl

lemma chunkRun_cons (cfg : ProcessorConfig) (s : ChunkState) (a : List Char)
    (l : List (List Char)) :
    chunkRun cfg s (a :: l) = chunkRun cfg (chunkStep cfg s a) l := rfl

/-- The chunk list of one step either is unchanged or gains the accumulator. -/
lemma chunkStep_chunks (cfg : ProcessorConfig) (s : ChunkState) (a : List Char) :
    (chunkStep cfg s a).chunks = s.chunks ∨
    (chunkStep cfg s a).chunks = s.chunks ++ [s.acc] := by
  by_cases h : cfg.chunkSize < (s.acc.length : Int) + (a.length : Int)
  · by_cases hm : cfg.minChunkLength ≤ (s.acc.length : Int)
    · rw [chunkStep_save_emit cfg s a h hm]; right; rfl
    · rw [chunkStep_save_drop cfg s a h hm]; left; rfl
  · rw [chunkStep_fit cfg s a h]; left; rfl

/-- The emitted-chunk list only grows during the run. -/
lemma chunkRun_ext (cfg : ProcessorConfig) (sents : List (List Char)) :
    ∀ s : ChunkState, ∃ ext, chunkRun cfg s sents = s.chunks ++ ext := by
  induction sents with
  | nil =>
    intro s
    by_cases hm : cfg.minChunkLength ≤ (s.acc.length : Int)
    · exact ⟨[trimSpace s.acc], by simp [chunkRun, chunkFold, finishChunks, hm]⟩
    · exact ⟨[], by simp [chunkRun, chunkFold, finishChunks, hm]⟩
  | cons a l ih =>
    intro s
    rw [chunkRun_cons]
    obtain ⟨ext, he⟩ := ih (chunkStep cfg s a)
    rcases chunkStep_chunks cfg s a with hc | hc
    · exact ⟨ext, by rw [he, hc]⟩
    · exact ⟨s.acc :: ext, by rw [he, hc]; simp⟩

/-- Every chunk emitted by the loop either was already present or met
`minChunkLength` (untrimmed) at its emission. -/
lemma chunkStep_chunks_sub (cfg : ProcessorConfig) (s : ChunkState) (a : List Char) :
    ∀ c ∈ (chunkStep cfg s a).chunks,
      c ∈ s.chunks ∨ cfg.minChunkLength ≤ (c.length : Int) := by
  intro c hc
  by_cases h : cfg.chunkSize < (s.acc.length : Int) + (a.length : Int)
  · by_cases hm : cfg.minChunkLength ≤ (s.acc.length : Int)
    · rw [chunkStep_save_emit cfg s a h hm] at hc
      rcases List.mem_append.mp hc with hin | hin
      · exact Or.inl hin
      · right
        rw [List.mem_singleton.mp hin]
        exact hm
    · rw [chunkStep_save_drop cfg s a h hm] at hc
      exact Or.inl hc
  · rw [chunkStep_fit cfg s a h] at hc
    exact Or.inl hc

lemma chunkFold_chunks_min (cfg : ProcessorConfig) (sents : List (List Char)) :
    ∀ s : ChunkState, ∀ c ∈ (chunkFold cfg s sents).chunks,
      c ∈ s.chunks ∨ cfg.minChunkLength ≤ (c.length : Int) := by
  induction sents with
  | nil => intro s c hc; exact Or.inl hc
  | cons a l ih =>
    intro s c hc
    rw [chunkFold_cons] at hc
    rcases ih (chunkStep cfg s a) c hc with hin | hlen
    · exact chunkStep_chunks_sub cfg s a c hin
    · exact Or.inr hlen

lemma lastN_length {l : List Char} {n : Nat} (h : n ≤ l.length) :
    (lastN l n).length = n := by
  simp [lastN, List.length_drop]
  omega

/-- The first chunk emitted after a state whose accumulator starts with `p`
and is at least `chunkOverlap` long begins with `p` (up to the final trim),
provided `minChunkLength ≤ chunkOverlap` so that it cannot be dropped. -/
lemma chunkRun_head (cfg : ProcessorConfig) (sents : List (List Char)) :
    ∀ (s : ChunkState) (p : List Char),
      0 < cfg.chunkOverlap → cfg.minChunkLength ≤ cfg.chunkOverlap →
      p <+: s.acc → cfg.chunkOverlap ≤ (s.acc.length : Int) →
      ∃ y rest, chunkRun cfg s sents = s.chunks ++ y :: rest ∧
        (p <+: y ∨ (rest = [] ∧ ∃ z, y = trimSpace z ∧ p <+: z)) := by
  induction sents with
  | nil =>
    intro s p _h1 h2 hp hl
    have hm : cfg.minChunkLength ≤ (s.acc.length : Int) := le_trans h2 hl
    exact ⟨trimSpace s.acc, [], by simp [chunkRun, chunkFold, finishChunks, hm],
      Or.inr ⟨rfl, s.acc, rfl, hp⟩⟩
  | cons a l ih =>
    intro s p h1 h2 hp hl
    rw [chunkRun_cons]
    by_cases h : cfg.chunkSize < (s.acc.length : Int) + (a.length : Int)
    · have hm : cfg.minChunkLength ≤ (s.acc.length : Int) := le_trans h2 hl
      obtain ⟨ext, he⟩ := chunkRun_ext cfg l (chunkStep cfg s a)
      have hc : (chunkStep cfg s a).chunks = s.chunks ++ [s.acc] := by
        rw [chunkStep_save_emit cfg s a h hm]
      exact ⟨s.acc, ext, by rw [he, hc]; simp, Or.inl hp⟩
    · rw [chunkStep_fit cfg s a h]
      have hp2 : p <+: s.acc ++ a ++ [' '] := by
        rw [List.append_assoc]
        exact hp.trans (List.prefix_append _ _)
      have hl2 : cfg.chunkOverlap ≤ ((s.acc ++ a ++ [' ']).length : Int) := by
        simp only [List.length_append]
        push_cast
        omega
      exact ih ⟨s.chunks, s.acc ++ a ++ [' ']⟩ p h1 h2 hp2 hl2

/-- Consecutive chunks of a run: when a chunk `A` strictly longer than
`chunkOverlap` is emitted at a split point, the next emitted chunk begins
with the last `chunkOverlap` characters of `A` — literally if it is itself a
split-point chunk, up to `trimSpace` if it is the final chunk. -/
lemma chunkRun_pairs (cfg : ProcessorConfig) (sents : List (List Char)) :
    ∀ (s : ChunkState) (i : Nat) (A B : List Char) (tail : List (List Char)),
      0 < cfg.chunkOverlap → cfg.minChunkLength ≤ cfg.chunkOverlap →
      s.chunks.length ≤ i →
      (chunkRun cfg s sents).drop i = A :: B :: tail →
      cfg.chunkOverlap < (A.length : Int) →
      ((tail ≠ [] → lastN A cfg.chunkOverlap.toNat <+: B) ∧
       (tail = [] →
         ∃ z, lastN A cfg.chunkOverlap.toNat <+: z ∧ (B = z ∨ B = trimSpace z))) := by
  induction sents with
  | nil =>
    intro s i A B tail _h1 _h2 hmono hdrop _hA
    exfalso
    have hlen : (chunkRun cfg s []).length ≤ s.chunks.length + 1 := by
      by_cases hm : cfg.minChunkLength ≤ (s.acc.length : Int)
      · simp [chunkRun, chunkFold, finishChunks, hm]
      · simp [chunkRun, chunkFold, finishChunks, hm]
    have := congrArg List.length hdrop
    simp [List.length_drop] at this
    omega
  | cons a l ih =>
    intro s i A B tail h1 h2 hmono hdrop hA
    rw [chunkRun_cons] at hdrop
    by_cases h : cfg.chunkSize < (s.acc.length : Int) + (a.length : Int)
    · by_cases hm : cfg.minChunkLength ≤ (s.acc.length : Int)
      · have hstep := chunkStep_save_emit cfg s a h hm
        have hc : (chunkStep cfg s a).chunks = s.chunks ++ [s.acc] := by rw [hstep]
        by_cases hi : i = s.chunks.length
        · subst hi
          obtain ⟨ext, he⟩ := chunkRun_ext cfg l (chunkStep cfg s a)
          rw [he, hc, List.append_assoc] at hdrop
          rw [List.drop_left] at hdrop
          injection hdrop with e1 e2
          subst e1
          have hov : 0 < cfg.chunkOverlap ∧ cfg.chunkOverlap < (s.acc.length : Int) :=
            ⟨h1, hA⟩
          have hacc : (chunkStep cfg s a).acc =
              lastN s.acc cfg.chunkOverlap.toNat ++ a ++ [' '] := by
            rw [hstep, if_pos hov]
          have hpre : lastN s.acc cfg.chunkOverlap.toNat <+: (chunkStep cfg s a).acc := by
            rw [hacc, List.append_assoc]
            exact List.prefix_append _ _
          have htn : cfg.chunkOverlap.toNat ≤ s.acc.length := by omega
          have hlen2 : cfg.chunkOverlap ≤ (((chunkStep cfg s a).acc).length : Int) := by
            rw [hacc]
            simp only [List.length_append, lastN_length htn]
            push_cast
            omega
          obtain ⟨y, rest, hout, hy⟩ :=
            chunkRun_head cfg l (chunkStep cfg s a) (lastN s.acc cfg.chunkOverlap.toNat)
              h1 h2 hpre hlen2
          have hext : ext = y :: rest := List.append_cancel_left (he.symm.trans hout)
          rw [hext] at e2
          injection e2 with e3 e4
          subst e3
          subst e4
          constructor
          · intro htail
            rcases hy with hy | hy
            · exact hy
            · exact absurd hy.1 htail
          · intro _htail
            rcases hy with hy | hy
            · exact ⟨_, hy, Or.inl rfl⟩
            · obtain ⟨_, z, hz, hpz⟩ := hy
              exact ⟨z, hpz, Or.inr hz⟩
        · have hmono2 : (chunkStep cfg s a).chunks.length ≤ i := by
            rw [hc]
            simp only [List.length_append, List.length_singleton]
            omega
          exact ih (chunkStep cfg s a) i A B tail h1 h2 hmono2 hdrop hA
      · have hc : (chunkStep cfg s a).chunks = s.chunks := by
          rw [chunkStep_save_drop cfg s a h hm]
        exact ih (chunkStep cfg s a) i A B tail h1 h2 (by rw [hc]; exact hmono) hdrop hA
    · have hc : (chunkStep cfg s a).chunks = s.chunks := by
        rw [chunkStep_fit cfg s a h]
      exact ih (chunkStep cfg s a) i A B tail h1 h2 (by rw [hc]; exact hmono) hdrop hA

/-! ### Claims C2, C3, C10 -/

/-- Claim C2, counterexample to the claim as stated: with `chunkSize = 5`,
`chunkOverlap = V = 4`, `minChunkLength = 4`, the text `"ab. cdef."` yields the
consecutive chunks `A = "ab. "` and `B = "cdef."`; `len A = 4 ≥ V`, yet `B`
does not begin with the last `V` characters of `A` (the reseeding branch of
`splitIntoChunks` requires `len A > V` strictly, so here the next chunk starts
empty). -/
theorem chunk_overlap_counterexample :
    splitIntoChunks ⟨5, 4, 4, false, [], false⟩ "ab. cdef.".toList =
      ["ab. ".toList, "cdef.".toList] ∧
    (0 : Int) < 4 ∧ (4 : Int) ≤ (("ab. ".toList).length : Int) ∧
    ¬ lastN "ab. ".toList 4 <+: "cdef.".toList := by
  decide

/-- Claim C2 (amended): for `chunkOverlap = V > 0` with `minChunkLength ≤ V`
(so no chunk between two emitted chunks can be dropped) and consecutive
emitted chunks `A` then `B` with `len A > V` strictly, `B` begins with the
last `V` characters of `A` — literally when `B` is not the document's final
chunk, and up to the final `TrimSpace` when it is. -/
theorem chunk_overlap_amended (cfg : ProcessorConfig) (text : List Char) (i : Nat)
    (A B : List Char) (tail : List (List Char))
    (h1 : 0 < cfg.chunkOverlap) (h2 : cfg.minChunkLength ≤ cfg.chunkOverlap)
    (hdrop : (splitIntoChunks cfg text).drop i = A :: B :: tail)
    (hA : cfg.chunkOverlap < (A.length : Int)) :
    (tail ≠ [] → lastN A cfg.chunkOverlap.toNat <+: B) ∧
    (tail = [] →
      ∃ z, lastN A cfg.chunkOverlap.toNat <+: z ∧ (B = z ∨ B = trimSpace z)) :=
  chunkRun_pairs cfg (splitIntoSentences text) ⟨[], []⟩ i A B tail h1 h2
    (by simp) hdrop hA

/-- Claim C2 amended, witness: `chunkSize = 5`, `chunkOverlap = 3`,
`minChunkLength = 3`, text `"ab. cdef."` gives chunks
`"ab. "` and `"b. cdef."`; the second begins with the last 3 characters of
the first (via the trim of `"b. cdef. "`). -/
theorem chunk_overlap_amended_witness :
    (([] : List (List Char)) ≠ [] →
      lastN "ab. ".toList ((3 : Int)).toNat <+: "b. cdef.".toList) ∧
    (([] : List (List Char)) = [] →
      ∃ z, lastN "ab. ".toList ((3 : Int)).toNat <+: z ∧
        ("b. cdef.".toList = z ∨ "b. cdef.".toList = trimSpace z)) :=
  chunk_overlap_amended ⟨5, 3, 3, false, [], false⟩ "ab. cdef.".toList 0
    "ab. ".toList "b. cdef.".toList [] (by decide) (by decide) (by decide) (by decide)

/-- Claim C3, counterexample to the claim as stated: with
`minChunkLength = 4` the text `"abc"` yields the single chunk `"abc"` of
length 3 < 4 — the final accumulator `"abc "` passes the (pre-trim) length
check and is only trimmed afterwards, so a chunk shorter than
`minChunkLength` is emitted, and the drop decision is not made on the
trimmed length as the claim states. -/
theorem chunk_min_length_counterexample :
    splitIntoChunks ⟨100, 10, 4, false, [], false⟩ "abc".toList = ["abc".toList] ∧
    ¬ (4 : Int) ≤ (("abc".toList).length : Int) := by
  decide

/-- Claim C3 (amended): every chunk emitted by `splitIntoChunks` had length
≥ `minChunkLength` at the moment of its emission check; every non-final
chunk is emitted untrimmed and hence itself has length ≥ `minChunkLength`,
while the final chunk is the `TrimSpace` of a string of length
≥ `minChunkLength` (chunks below `minChunkLength` before trimming are
dropped, including possibly the very last one). -/
theorem chunk_min_length_amended (cfg : ProcessorConfig) (text : List Char)
    (i : Nat) (A : List Char) (rest : List (List Char))
    (hdrop : (splitIntoChunks cfg text).drop i = A :: rest) :
    (rest ≠ [] → cfg.minChunkLength ≤ (A.length : Int)) ∧
    (∃ y, (A = y ∨ A = trimSpace y) ∧ cfg.minChunkLength ≤ (y.length : Int)) := by
  have hmem : A ∈ splitIntoChunks cfg text :=
    List.mem_of_mem_drop (hdrop ▸ List.mem_cons_self A rest)
  have hchunks := chunkFold_chunks_min cfg (splitIntoSentences text) ⟨[], []⟩
  simp only [ChunkState.chunks] at hchunks
  by_cases hm : cfg.minChunkLength ≤
      (((chunkFold cfg ⟨[], []⟩ (splitIntoSentences text)).acc.length : Int))
  · have hout : splitIntoChunks cfg text =
        (chunkFold cfg ⟨[], []⟩ (splitIntoSentences text)).chunks ++
          [trimSpace (chunkFold cfg ⟨[], []⟩ (splitIntoSentences text)).acc] := by
      simp [splitIntoChunks, chunkRun, finishChunks, hm]
    constructor
    · intro hrest
      have hlen := congrArg List.length hdrop
      rw [hout] at hlen
      simp only [List.length_drop, List.length_append, List.length_cons,
        List.length_singleton, List.length_nil] at hlen
      have hi : i <
          (chunkFold cfg ⟨[], []⟩ (splitIntoSentences text)).chunks.length := by
        have : 0 < rest.length := List.length_pos.mpr hrest
        omega
      rw [hout, List.drop_append_eq_append_drop] at hdrop
      rcases hD : (chunkFold cfg ⟨[], []⟩ (splitIntoSentences text)).chunks.drop i with
        _ | ⟨Ah, D⟩
      · have hlen2 := congrArg List.length hD
        simp only [List.length_drop, List.length_nil] at hlen2
        omega
      · rw [hD] at hdrop
        simp only [List.cons_append] at hdrop
        injection hdrop with e1 _e2
        have hAin : A ∈ (chunkFold cfg ⟨[], []⟩ (splitIntoSentences text)).chunks := by
          apply List.mem_of_mem_drop
          rw [hD, e1]
          exact List.mem_cons_self _ _
        rcases hchunks A hAin with hfalse | hgood
        · exact absurd hfalse (List.not_mem_nil A)
        · exact hgood
    · rw [hout] at hmem
      rcases List.mem_append.mp hmem with hin | hin
      · rcases hchunks A hin with hfalse | hgood
        · exact absurd hfalse (List.not_mem_nil A)
        · exact ⟨A, Or.inl rfl, hgood⟩
      · refine ⟨(chunkFold cfg ⟨[], []⟩ (splitIntoSentences text)).acc,
          Or.inr (List.mem_singleton.mp hin), hm⟩
  · have hout : splitIntoChunks cfg text =
        (chunkFold cfg ⟨[], []⟩ (splitIntoSentences text)).chunks := by
      simp [splitIntoChunks, chunkRun, finishChunks, hm]
    rw [hout] at hmem
    rcases hchunks A hmem with hfalse | hgood
    · exact absurd hfalse (List.not_mem_nil A)
    · exact ⟨fun _ => hgood, A, Or.inl rfl, hgood⟩

/-- Claim C3 amended, witness: with `minChunkLength = 4` and text `"abc"`,
the single emitted chunk `"abc"` is the trim of `"abc "`, whose pre-trim
length 4 meets the minimum. -/
theorem chunk_min_length_amended_witness :
    (([] : List (List Char)) ≠ [] → (4 : Int) ≤ (("abc".toList).length : Int)) ∧
    (∃ y, ("abc".toList = y ∨ "abc".toList = trimSpace y) ∧
      (4 : Int) ≤ ((y.length : Int))) :=
  chunk_min_length_amended ⟨100, 10, 4, false, [], false⟩ "abc".toList 0
    "abc".toList [] (by decide)

/-- Claim C10: `Processor.Process` returns a nil error for every input list
of documents and every configuration — the error component of the result is
literally `none`, so no document content or configuration can make
processing fail. -/
theorem process_never_errors (cfg : ProcessorConfig) (docs : List Document) :
    (process cfg docs).2 = none := rfl

/-! ### Crawl invariants -/

/-- Beyond `maxDepth` the recursion is a no-op at every fuel, exactly like
the source's `depth > maxDepth` early return. -/
lemma scrapeRecF_stop (web : Web) (s : Scraper) (f : Nat) (url : List Char)
    (depth : Int) (st : CrawlSt) (h : depth > s.config.maxDepth) :
    scrapeRecF web s f url depth st = (st, none) := by
  cases f with
  | zero => rfl
  | succ f => simp [scrapeRecF, Or.inl h]

/-- The fuel is irrelevant once it covers the remaining depth budget: the
fuel-based definition computes the same function as the Go recursion, whose
termination is governed solely by the `depth > maxDepth` check. -/
lemma scrapeRecF_fuel (web : Web) (s : Scraper) :
    ∀ (f1 f2 : Nat) (url : List Char) (depth : Int) (st : CrawlSt),
      (s.config.maxDepth + 2 - depth).toNat ≤ f1 →
      (s.config.maxDepth + 2 - depth).toNat ≤ f2 →
      scrapeRecF web s f1 url depth st = scrapeRecF web s f2 url depth st := by
  intro f1
  induction f1 with
  | zero =>
    intro f2 url depth st h1 _h2
    have hd : depth > s.config.maxDepth := by omega
    rw [scrapeRecF_stop web s 0 url depth st hd,
      scrapeRecF_stop web s f2 url depth st hd]
  | succ a ih =>
    intro f2 url depth st h1 h2
    cases f2 with
    | zero =>
      have hd : depth > s.config.maxDepth := by omega
      rw [scrapeRecF_stop web s (a + 1) url depth st hd,
        scrapeRecF_stop web s 0 url depth st hd]
    | succ b =>
      by_cases hg : depth > s.config.maxDepth ∨ url ∈ st.visited
      · simp only [scrapeRecF, if_pos hg]
      · by_cases hsp : shouldProcessURL s url = true
        · have hdep : depth ≤ s.config.maxDepth :=
            le_of_not_lt (fun hlt => hg (Or.inl hlt))
          have hba : (s.config.maxDepth + 2 - (depth + 1)).toNat ≤ a := by omega
          have hbb : (s.config.maxDepth + 2 - (depth + 1)).toNat ≤ b := by omega
          have hfold : ∀ (links : List (List Char)) (st0 : CrawlSt),
              links.foldl
                (fun acc link => (scrapeRecF web s a link (depth + 1) acc).1) st0 =
              links.foldl
                (fun acc link => (scrapeRecF web s b link (depth + 1) acc).1) st0 := by
            intro links
            induction links with
            | nil => intro st0; rfl
            | cons l ls ihl =>
              intro st0
              simp only [List.foldl_cons]
              rw [ih b l (depth + 1) st0 hba hbb]
              exact ihl _
          simp only [scrapeRecF, if_neg hg, hsp, Bool.not_true, Bool.false_eq_true,
            if_false]
          cases hw : web url with
          | none => rfl
          | some page =>
            by_cases hst : page.status ≠ 200
            · simp only [if_pos hst]
            · simp only [if_neg hst]
              rw [hfold]
        · have hspf : shouldProcessURL s url = false := by simpa using hsp
          simp only [scrapeRecF, if_neg hg, hspf, Bool.not_false, if_true]

lemma stepInv_refl (s : Scraper) (st : CrawlSt) : stepInv s st st :=
  ⟨fun _ hv => hv, ⟨[], by simp⟩, fun _ hd => Or.inl hd⟩

lemma stepInv_trans {s : Scraper} {st1 st2 st3 : CrawlSt}
    (h12 : stepInv s st1 st2) (h23 : stepInv s st2 st3) : stepInv s st1 st3 := by
  obtain ⟨v12, ⟨nf1, hf1, hn1, hu1⟩, d12⟩ := h12
  obtain ⟨v23, ⟨nf2, hf2, hn2, hu2⟩, d23⟩ := h23
  refine ⟨fun v hv => v23 v (v12 v hv), ⟨nf1 ++ nf2, ?_, ?_, ?_⟩, ?_⟩
  · rw [hf2, hf1, List.append_assoc]
  · rw [List.nodup_append]
    exact ⟨hn1, hn2, fun a ha1 ha2 => (hu2 a ha2).1 ((hu1 a ha1).2)⟩
  · intro u hu
    rcases List.mem_append.mp hu with h1 | h2
    · exact ⟨(hu1 u h1).1, v23 u (hu1 u h1).2⟩
    · exact ⟨fun hin => (hu2 u h2).1 (v12 u hin), (hu2 u h2).2⟩
  · intro d hd
    rcases d23 d hd with hin | hg
    · exact d12 d hin
    · exact Or.inr hg

/-- A URL that passes the admission test parses and lies on the base host. -/
lemma shouldProcess_host (s : Scraper) (u : List Char)
    (h : shouldProcessURL s u = true) :
    ∃ pu, goURLParse u = some pu ∧ pu.host = s.baseHost := by
  unfold shouldProcessURL at h
  cases hp : goURLParse u with
  | none => rw [hp] at h; exact absurd h (by simp)
  | some pu =>
    rw [hp] at h
    by_cases hh : pu.host = s.baseHost
    · exact ⟨pu, rfl, hh⟩
    · simp [hh] at h

/-- The crawl recursion preserves `stepInv` from any starting state, for any
fuel. -/
lemma scrapeRecF_inv (web : Web) (s : Scraper) :
    ∀ (fuel : Nat) (url : List Char) (depth : Int) (st : CrawlSt),
      stepInv s st (scrapeRecF web s fuel url depth st).1 := by
  intro fuel
  induction fuel with
  | zero => intro url depth st; exact stepInv_refl s st
  | succ fuel ih =>
    intro url depth st
    by_cases h1 : depth > s.config.maxDepth ∨ url ∈ st.visited
    · simp only [scrapeRecF, if_pos h1]
      exact stepInv_refl s st
    · by_cases h2 : shouldProcessURL s url = true
      · have hnv : url ∉ st.visited := fun hin => h1 (Or.inr hin)
        have hdep : depth ≤ s.config.maxDepth := by
          rcases lt_or_ge s.config.maxDepth depth with hlt | hge
          · exact absurd (Or.inl hlt) h1
          · exact hge
        have inv01 : stepInv s st
            ⟨url :: st.visited, st.docs, st.fetched ++ [url]⟩ := by
          refine ⟨fun v hv => List.mem_cons_of_mem _ hv,
            ⟨[url], rfl, List.nodup_singleton url, ?_⟩, fun d hd => Or.inl hd⟩
          intro u hu
          rw [List.mem_singleton.mp hu]
          exact ⟨hnv, List.mem_cons_self _ _⟩
        simp only [scrapeRecF, if_neg h1, h2, Bool.not_true, Bool.false_eq_true,
          if_false]
        cases hw : web url with
        | none => exact inv01
        | some page =>
          by_cases hst : page.status ≠ 200
          · simp only [if_pos hst]
            exact inv01
          · simp only [if_neg hst]
            set doc : Document :=
              { id := [], url := url, title := page.title,
                content := cleanContent page.rawContent,
                metadata := ⟨depth, page.contentType, page.lastModified⟩ } with hdoc
            have inv12 : stepInv s
                ⟨url :: st.visited, st.docs, st.fetched ++ [url]⟩
                ⟨url :: st.visited, st.docs ++ [doc], st.fetched ++ [url]⟩ := by
              refine ⟨fun v hv => hv, ⟨[], by simp⟩, ?_⟩
              intro d hd
              rcases List.mem_append.mp hd with hin | hin
              · exact Or.inl hin
              · right
                rw [List.mem_singleton.mp hin]
                obtain ⟨pu, hpu, hhost⟩ := shouldProcess_host s url h2
                exact ⟨hdep, pu, hpu, hhost⟩
            have hfold : ∀ (links : List (List Char)) (st0 : CrawlSt),
                stepInv s st0 (links.foldl
                  (fun acc link => (scrapeRecF web s fuel link (depth + 1) acc).1)
                  st0) := by
              intro links
              induction links with
              | nil => intro st0; exact stepInv_refl s st0
              | cons l ls ihl =>
                intro st0
                exact stepInv_trans (ih l (depth + 1) st0) (ihl _)
            exact stepInv_trans (stepInv_trans inv01 inv12)
              (hfold page.links ⟨url :: st.visited, st.docs ++ [doc], st.fetched ++ [url]⟩)
      · have h2f : shouldProcessURL s url = false := by
          simpa using h2
        simp only [scrapeRecF, if_neg h1, h2f, Bool.not_false, if_true]
        exact stepInv_refl s st

/-! ### Claims C1, C9, C6 -/

/-- Claim C1: every document returned by `Scrape` has a URL on the base host
and a metadata depth within `maxDepth`, and no URL is passed to `client.Get`
twice within the crawl; moreover the scraper's `baseHost` is the host of the
parsed base URL of its configuration. -/
theorem scrape_scope_dedup (web : Web) (cfg : ScraperConfig) (s : Scraper)
    (url : List Char) (hs : scraperNewWithConfig cfg = some s) :
    (∀ d ∈ (scrape web s url).2.1,
        d.metadata.depth ≤ s.config.maxDepth ∧
        ∃ pu, goURLParse d.url = some pu ∧ pu.host = s.baseHost) ∧
    (scrape web s url).2.2.1.Nodup ∧
    (∃ bu, goURLParse cfg.baseURL = some bu ∧ s.baseHost = bu.host) := by
  obtain ⟨_hv, ⟨nf, hfet, hnodup, _hnf⟩, hdocs⟩ :=
    scrapeRecF_inv web s (s.config.maxDepth + 2 - 0).toNat url 0 ⟨s.visited, [], []⟩
  refine ⟨?_, ?_, ?_⟩
  · intro d hd
    rcases hdocs d hd with hin | hg
    · exact absurd hin (List.not_mem_nil d)
    · exact hg
  · show (scrapeRecF web s (s.config.maxDepth + 2 - 0).toNat url 0
      ⟨s.visited, [], []⟩).1.fetched.Nodup
    rw [hfet]
    simpa using hnodup
  · simp only [scraperNewWithConfig] at hs
    cases hp : goURLParse cfg.baseURL with
    | none => rw [hp] at hs; simp at hs
    | some bu =>
      rw [hp] at hs
      refine ⟨bu, rfl, ?_⟩
      have he := Option.some.inj hs
      rw [← he]

/-- Claim C1, witness at a concrete site and scraper. -/
theorem scrape_scope_dedup_witness :
    (∀ d ∈ (scrape demoWeb demoScraper ("http://h/a".toList)).2.1,
        d.metadata.depth ≤ demoScraper.config.maxDepth ∧
        ∃ pu, goURLParse d.url = some pu ∧ pu.host = demoScraper.baseHost) ∧
    (scrape demoWeb demoScraper ("http://h/a".toList)).2.2.1.Nodup ∧
    (∃ bu, goURLParse demoCfg.baseURL = some bu ∧ demoScraper.baseHost = bu.host) :=
  scrape_scope_dedup demoWeb demoCfg demoScraper ("http://h/a".toList) (by decide)

/-- Claim C9, counterexample to the claim as stated: the `visited` map lives
on the `Scraper` struct and is never reset by `Scrape`.  The first call
fetches pages; a second call on the same instance with the same start URL
fetches nothing and returns no documents, and the instance's `visited` map
is non-empty after the first call returns — so the visited set is neither
created fresh per call nor destroyed when the call returns, and a URL
fetched in the first call cannot be fetched again in the second. -/
theorem visited_persistence_counterexample :
    (scrape demoWeb demoScraper ("http://h/a".toList)).2.2.1 ≠ [] ∧
    (scrape demoWeb ((scrape demoWeb demoScraper ("http://h/a".toList)).1)
        ("http://h/a".toList)).2.2.1 = [] ∧
    (scrape demoWeb ((scrape demoWeb demoScraper ("http://h/a".toList)).1)
        ("http://h/a".toList)).2.1 = [] ∧
    ((scrape demoWeb demoScraper ("http://h/a".toList)).1).visited ≠ [] := by
  decide

/-- Claim C9 (amended): the `visited` map is created once at construction
and persists across `Scrape` calls on the same instance: it only grows, the
fetch traces of two successive calls are disjoint (a URL fetched in the
first call is never fetched again in the second), and their concatenation
has no duplicates — each URL is fetched at most once over the scraper's
lifetime rather than at most once per call. -/
theorem visited_persistence_amended (web : Web) (s : Scraper) (u1 u2 : List Char) :
    (∀ v ∈ s.visited, v ∈ ((scrape web s u1).1).visited) ∧
    (∀ x ∈ (scrape web ((scrape web s u1).1) u2).2.2.1,
        x ∉ (scrape web s u1).2.2.1) ∧
    ((scrape web s u1).2.2.1 ++ (scrape web ((scrape web s u1).1) u2).2.2.1).Nodup := by
  obtain ⟨hv1, ⟨nf1, hfet1, hnodup1, hnf1⟩, _⟩ :=
    scrapeRecF_inv web s (s.config.maxDepth + 2 - 0).toNat u1 0 ⟨s.visited, [], []⟩
  obtain ⟨_, ⟨nf2, hfet2, hnodup2, hnf2⟩, _⟩ :=
    scrapeRecF_inv web ((scrape web s u1).1)
      ((((scrape web s u1).1).config.maxDepth + 2 - 0).toNat) u2 0
      ⟨((scrape web s u1).1).visited, [], []⟩
  have e1 : (scrape web s u1).2.2.1 = nf1 := by
    show (scrapeRecF web s (s.config.maxDepth + 2 - 0).toNat u1 0
      ⟨s.visited, [], []⟩).1.fetched = nf1
    rw [hfet1]
    simp
  have e2 : (scrape web ((scrape web s u1).1) u2).2.2.1 = nf2 := by
    show (scrapeRecF web ((scrape web s u1).1)
      ((((scrape web s u1).1).config.maxDepth + 2 - 0).toNat) u2 0
      ⟨((scrape web s u1).1).visited, [], []⟩).1.fetched = nf2
    rw [hfet2]
    simp
  have hsub1 : ∀ x ∈ nf1, x ∈ ((scrape web s u1).1).visited := by
    intro x hx
    exact (hnf1 x hx).2
  refine ⟨hv1, ?_, ?_⟩
  · intro x hx
    rw [e2] at hx
    rw [e1]
    intro hx1
    exact (hnf2 x hx).1 (hsub1 x hx1)
  · rw [e1, e2, List.nodup_append]
    exact ⟨hnodup1, hnodup2, fun a ha1 ha2 => (hnf2 a ha2).1 (hsub1 a ha1)⟩

lemma startsWith_nil (s : List Char) : startsWith s [] = true := by
  cases s <;> rfl

/-- Claim C6, counterexample to the claim as stated: the default
allowed-extensions list contains the empty string, and with it a URL ending
in `.pdf` — not an allowed extension — passes the admission test, because
`strings.HasSuffix(path, "")` holds for every path.  The empty entry does
not match "exactly the extension-less or directory paths": it matches
everything. -/
theorem extension_filter_counterexample :
    "".toList ∈ demoScraper.config.allowedExtensions ∧
    shouldProcessURL demoScraper ("http://h/doc.pdf".toList) = true := by
  decide

/-- Claim C6 (amended): `shouldProcessURL` computes exactly the conjunction
"host equals base host AND the lowercased path ends in one of
`allowedExtensions` AND no ignore pattern occurs in the URL" (false when the
URL does not parse); and an empty-string extension entry matches every path
(`HasSuffix` with the empty suffix always holds), so a list containing `""`
never rejects any URL through the extension clause — in particular `.pdf`
is then accepted, not rejected.  A list without an empty entry, e.g. only
`".html"`, does reject `.pdf` URLs. -/
theorem extension_filter_amended :
    (∀ (s : Scraper) (u : List Char) (pu : GoURL), goURLParse u = some pu →
      shouldProcessURL s u =
        (decide (pu.host = s.baseHost) &&
         (s.config.allowedExtensions.any
            (fun a => endsWith (toLowerList pu.path) a)) &&
         !(s.config.ignorePatterns.any (fun pat => containsSub u pat)))) ∧
    (∀ (s : Scraper) (u : List Char), goURLParse u = none →
      shouldProcessURL s u = false) ∧
    (∀ x : List Char, endsWith x [] = true) ∧
    shouldProcessURL
      ⟨⟨"http://h/".toList, 3, 2, [], [".html".toList], 0⟩, [], "h".toList⟩
      ("http://h/doc.pdf".toList) = false := by
  refine ⟨?_, ?_, fun x => startsWith_nil x.reverse, by decide⟩
  · intro s u pu hp
    simp only [shouldProcessURL, hp]
    by_cases hh : pu.host = s.baseHost
    · cases hv : (s.config.allowedExtensions.any
          (fun a => endsWith (toLowerList pu.path) a)) <;>
      cases hig : (s.config.ignorePatterns.any (fun pat => containsSub u pat)) <;>
      simp [hh, hv, hig]
    · simp [hh]
  · intro s u hp
    simp [shouldProcessURL, hp]

/-- Claim C6 amended, witness: the admission test on `http://h/doc.pdf`
against the default extension list evaluates to the stated conjunction. -/
theorem extension_filter_amended_witness :
    shouldProcessURL demoScraper ("http://h/doc.pdf".toList) =
      (decide ((⟨"h".toList, "/doc.pdf".toList⟩ : GoURL).host = demoScraper.baseHost) &&
       (demoScraper.config.allowedExtensions.any
          (fun a => endsWith (toLowerList (⟨"h".toList, "/doc.pdf".toList⟩ : GoURL).path) a)) &&
       !(demoScraper.config.ignorePatterns.any
          (fun pat => containsSub ("http://h/doc.pdf".toList) pat))) :=
  extension_filter_amended.1 demoScraper ("http://h/doc.pdf".toList)
    ⟨"h".toList, "/doc.pdf".toList⟩ (by decide)

/-! ### Claims C4, C5 -/

/-- Claim C4, counterexample to the claim as stated: `processor.NewWithConfig`
has no error return.  With `chunkSize = 5`, `chunkOverlap = 10` (violating
`chunkOverlap < chunkSize`) and `minChunkLength = -1` (violating
`minChunkLength > 0`) it returns a `Processor` carrying that invalid
configuration unchanged — a processor is produced and no error exists. -/
theorem chunker_construction_counterexample :
    processorNewWithConfig ⟨5, 10, -1, false, [], false⟩ =
      ⟨⟨5, 10, -1, false, [], false⟩⟩ := by
  decide

/-- Claim C4 (amended): `processor.NewWithConfig` never fails — it only
substitutes defaults for zero-valued fields, accepting any configuration.
The rules `chunkSize > 0` and `0 ≤ chunkOverlap < chunkSize` are enforced
only by `config.Config.Validate`, which reports a validation error for each
violation; no `minChunkLength` validation exists anywhere. -/
theorem chunker_validation_amended :
    (∀ pcfg : ProcessorConfig, processorNewWithConfig pcfg =
      ⟨⟨(if pcfg.chunkSize = 0 then 1000 else pcfg.chunkSize),
        (if pcfg.chunkOverlap = 0 then 200 else pcfg.chunkOverlap),
        (if pcfg.minChunkLength = 0 then 100 else pcfg.minChunkLength),
        pcfg.removeStopwords, pcfg.customStopwords, pcfg.preserveLineBreaks⟩⟩) ∧
    (∀ c : GoConfig, c.processorChunkSize < 1 →
      (⟨"processor.chunk_size", "chunk_size must be positive"⟩ : ValidationError) ∈
        validate c) ∧
    (∀ c : GoConfig,
      c.processorChunkOverlap < 0 ∨ c.processorChunkSize ≤ c.processorChunkOverlap →
      (⟨"processor.chunk_overlap",
        "chunk_overlap must be non-negative and less than chunk_size"⟩ :
          ValidationError) ∈ validate c) := by
  refine ⟨fun pcfg => rfl, ?_, ?_⟩
  · intro c hc
    simp only [validate]
    rw [if_pos hc]
    simp
  · intro c hc
    simp only [validate]
    rw [if_pos hc]
    simp

/-- Claim C4 amended, witness: a configuration with `chunk_size = 0` and
`chunk_overlap = -1` receives both processor validation errors. -/
theorem chunker_validation_amended_witness :
    (⟨"processor.chunk_size", "chunk_size must be positive"⟩ : ValidationError) ∈
      validate demoBadConfig ∧
    (⟨"processor.chunk_overlap",
      "chunk_overlap must be non-negative and less than chunk_size"⟩ :
        ValidationError) ∈ validate demoBadConfig :=
  ⟨chunker_validation_amended.2.1 demoBadConfig (by decide),
   chunker_validation_amended.2.2 demoBadConfig (Or.inl (by decide))⟩

/-- Claim C5, counterexample to the claim as stated: `scraper.NewWithConfig`
performs no rate-limit validation.  With `RateLimit = -1` construction
succeeds (the negative rate is kept and handed to `rate.NewLimiter`), and
with `RateLimit = 0` it silently substitutes the default `2` — in neither
case does construction fail with a configuration error. -/
theorem scraper_rate_limit_counterexample :
    (scraperNewWithConfig ⟨"http://h/".toList, 3, -1, [], [], 0⟩).isSome = true ∧
    ((scraperNewWithConfig ⟨"http://h/".toList, 3, -1, [], [], 0⟩).map
      (fun s => s.config.rateLimit)) = some (-1) ∧
    ((scraperNewWithConfig ⟨"http://h/".toList, 3, 0, [], [], 0⟩).map
      (fun s => s.config.rateLimit)) = some 2 := by
  decide

/-- Claim C5 (amended): the crawler's constructor never checks the rate:
construction succeeds exactly when the base URL parses, a zero rate is
silently defaulted to 2 and any other value (including negative ones) is
kept.  The `R ≤ 0` check lives only in `config.Config.Validate`, which
reports `"rate_limit must be positive"`. -/
theorem rate_limit_validation_amended :
    (∀ scfg : ScraperConfig,
      (scraperNewWithConfig scfg).isSome = (goURLParse scfg.baseURL).isSome) ∧
    (∀ (scfg : ScraperConfig) (s : Scraper), scraperNewWithConfig scfg = some s →
      s.config.rateLimit = if scfg.rateLimit = 0 then 2 else scfg.rateLimit) ∧
    (∀ c : GoConfig, c.scraperRateLimit ≤ 0 →
      (⟨"scraper.rate_limit", "rate_limit must be positive"⟩ : ValidationError) ∈
        validate c) := by
  refine ⟨?_, ?_, ?_⟩
  · intro scfg
    cases hp : goURLParse scfg.baseURL <;> simp [scraperNewWithConfig, hp]
  · intro scfg s hs
    simp only [scraperNewWithConfig] at hs
    cases hp : goURLParse scfg.baseURL with
    | none => rw [hp] at hs; simp at hs
    | some bu =>
      rw [hp] at hs
      have he := Option.some.inj hs
      rw [← he]
  · intro c hc
    simp only [validate]
    rw [if_pos hc]
    simp

/-- Claim C5 amended, witness: at a concrete configuration the constructor
succeeds with the default rate substituted for 0, and `Validate` flags a
negative rate. -/
theorem rate_limit_validation_amended_witness :
    ((demoScraper).config.rateLimit =
      if (demoCfg.rateLimit : Rat) = 0 then 2 else demoCfg.rateLimit) ∧
    (⟨"scraper.rate_limit", "rate_limit must be positive"⟩ : ValidationError) ∈
      validate demoBadConfig :=
  ⟨rate_limit_validation_amended.2.1 demoCfg demoScraper (by decide),
   rate_limit_validation_amended.2.2 demoBadConfig (by decide)⟩

/-! ### Store lemmas -/

lemma beq_comm_list (x y : List Char) : (x == y) = (y == x) := by
  by_cases h : x = y
  · subst h; rfl
  · have h1 : (x == y) = false := by simpa using h
    have h2 : (y == x) = false := by simpa using fun e => h e.symm
    rw [h1, h2]

lemma hasId_upsert (t : Table) (id : List Char) (row : Row) (x : List Char) :
    hasId (upsert t id row) x = (hasId t x || x == id) := by
  by_cases h : hasId t id
  · have hmap : hasId (upsert t id row) x = hasId t x := by
      unfold upsert
      rw [if_pos h]
      simp only [hasId, List.any_map]
      congr 1
      funext e
      by_cases he : e.1 = id <;> simp [he, Function.comp]
    rw [hmap]
    by_cases hx : x = id
    · subst hx
      simp [h]
    · have h2 : (x == id) = false := by simpa using hx
      simp [h2]
  · have hf : hasId t id = false := by simpa using h
    unfold upsert
    rw [if_neg (by simp [hf])]
    simp only [hasId, List.any_append, List.any_cons, List.any_nil, Bool.or_false]
    rw [beq_comm_list id x]

lemma idsOf_upsert_of_hasId (t : Table) (id : List Char) (row : Row)
    (h : hasId t id = true) : idsOf (upsert t id row) = idsOf t := by
  unfold upsert
  rw [if_pos h]
  simp only [idsOf, List.map_map]
  congr 1
  funext e
  by_cases he : e.1 = id <;> simp [he, Function.comp]

lemma idsOf_upsert_of_not (t : Table) (id : List Char) (row : Row)
    (h : hasId t id = false) : idsOf (upsert t id row) = idsOf t ++ [id] := by
  unfold upsert
  rw [if_neg (by simp [h])]
  simp [idsOf]

lemma hasId_iff (t : Table) (x : List Char) :
    hasId t x = true ↔ x ∈ idsOf t := by
  simp only [hasId, idsOf, List.any_eq_true, List.mem_map, beq_iff_eq]

lemma idsOf_upsert_nodup (t : Table) (id : List Char) (row : Row)
    (h : (idsOf t).Nodup) : (idsOf (upsert t id row)).Nodup := by
  by_cases hh : hasId t id
  · rw [idsOf_upsert_of_hasId t id row hh]
    exact h
  · have hf : hasId t id = false := by simpa using hh
    rw [idsOf_upsert_of_not t id row hf]
    rw [List.nodup_append]
    refine ⟨h, List.nodup_singleton id, ?_⟩
    intro a ha hmem
    rw [List.mem_singleton.mp hmem] at ha
    exact hh ((hasId_iff t id).mpr ha)

lemma storeChunks_ok (embed : Embedder) (execOk : ExecOracle)
    (docId url title : List Char) (meta : MetaData) :
    ∀ (chunks : List (List Char)) (i : Nat) (tx tx2 : Table),
      storeChunks embed execOk docId url title meta chunks i tx = .ok tx2 →
      (∀ x, hasId tx x = true → hasId tx2 x = true) ∧
      (∀ j, j < chunks.length → hasId tx2 (compoundId docId (i + j)) = true) ∧
      ((idsOf tx).Nodup → (idsOf tx2).Nodup) := by
  intro chunks
  induction chunks with
  | nil =>
    intro i tx tx2 h
    simp only [storeChunks] at h
    injection h with h
    subst h
    exact ⟨fun _ hx => hx, fun j hj => absurd hj (by simp), fun hn => hn⟩
  | cons c rest ih =>
    intro i tx tx2 h
    simp only [storeChunks] at h
    split at h
    · exact Except.noConfusion h
    · rename_i emb _heq
      split at h
      · rename_i hex
        obtain ⟨mono, hids, hnod⟩ := ih (i + 1) _ tx2 h
        refine ⟨?_, ?_, ?_⟩
        · intro x hx
          apply mono x
          rw [hasId_upsert]
          simp [hx]
        · intro j hj
          cases j with
          | zero =>
            have hpres : hasId
                (upsert tx (compoundId docId i)
                  ⟨url, title, sanitizeUTF8 c, (i : Int), emb.flatten, meta⟩)
                (compoundId docId i) = true := by
              rw [hasId_upsert]
              simp
            simpa using mono _ hpres
          | succ j =>
            have hj2 : j < rest.length := by simpa using hj
            have := hids j hj2
            have harith : i + (j + 1) = i + 1 + j := by omega
            rw [harith]
            exact this
        · intro hn
          exact hnod (idsOf_upsert_nodup _ _ _ hn)
      · exact Except.noConfusion h

/-- Replaying a successful chunk loop against any transaction table that
already contains all the compound ids of the loop succeeds and leaves the
id list unchanged: every upsert takes the conflict branch. -/
lemma storeChunks_replay (embed : Embedder) (execOk : ExecOracle)
    (docId url title : List Char) (meta : MetaData) :
    ∀ (chunks : List (List Char)) (i : Nat) (tx tx2 u : Table),
      storeChunks embed execOk docId url title meta chunks i tx = .ok tx2 →
      (∀ j, j < chunks.length → hasId u (compoundId docId (i + j)) = true) →
      ∃ u2, storeChunks embed execOk docId url title meta chunks i u = .ok u2 ∧
        idsOf u2 = idsOf u := by
  intro chunks
  induction chunks with
  | nil =>
    intro i tx tx2 u _h _hp
    exact ⟨u, rfl, rfl⟩
  | cons c rest ih =>
    intro i tx tx2 u h hp
    simp only [storeChunks] at h ⊢
    split at h
    · exact Except.noConfusion h
    · rename_i emb _heq
      split at h
      · rename_i hex
        rw [if_pos hex]
        have hid0 : hasId u (compoundId docId i) = true := by
          simpa using hp 0 (by simp)
        have hrest : ∀ j, j < rest.length →
            hasId (upsert u (compoundId docId i)
              ⟨url, title, sanitizeUTF8 c, (i : Int), emb.flatten, meta⟩)
              (compoundId docId (i + 1 + j)) = true := by
          intro j hj
          rw [hasId_upsert]
          have harith : i + 1 + j = i + (j + 1) := by omega
          rw [harith]
          have := hp (j + 1) (by simpa using hj)
          simp [this]
        obtain ⟨u2, hok, hid⟩ := ih (i + 1) _ tx2 _ h hrest
        refine ⟨u2, hok, hid.trans ?_⟩
        exact idsOf_upsert_of_hasId u _ _ hid0
      · exact Except.noConfusion h

lemma storeDocs_ok (embed : Embedder) (execOk : ExecOracle) :
    ∀ (docs : List ProcessedDocument) (tx tx2 : Table),
      storeDocs embed execOk docs tx = .ok tx2 →
      (∀ x, hasId tx x = true → hasId tx2 x = true) ∧
      (∀ pd ∈ docs, ∀ j, j < pd.chunks.length →
        hasId tx2 (compoundId pd.document.id j) = true) ∧
      ((idsOf tx).Nodup → (idsOf tx2).Nodup) := by
  intro docs
  induction docs with
  | nil =>
    intro tx tx2 h
    injection h with h
    subst h
    exact ⟨fun _ hx => hx, fun pd hpd => absurd hpd (List.not_mem_nil pd),
      fun hn => hn⟩
  | cons d rest ih =>
    intro tx tx2 h
    simp only [storeDocs] at h
    split at h
    · exact Except.noConfusion h
    · rename_i mid hmid
      obtain ⟨cmono, cids, cnod⟩ :=
        storeChunks_ok embed execOk d.document.id d.document.url
          (sanitizeUTF8 d.document.title) d.document.metadata d.chunks 0 tx mid hmid
      obtain ⟨rmono, rids, rnod⟩ := ih mid tx2 h
      refine ⟨fun x hx => rmono x (cmono x hx), ?_, fun hn => rnod (cnod hn)⟩
      intro pd hpd j hj
      rcases List.mem_cons.mp hpd with rfl | hin
      · exact rmono _ (by simpa using cids j hj)
      · exact rids pd hin j hj

lemma storeDocs_replay (embed : Embedder) (execOk : ExecOracle) :
    ∀ (docs : List ProcessedDocument) (tx tx2 u : Table),
      storeDocs embed execOk docs tx = .ok tx2 →
      (∀ pd ∈ docs, ∀ j, j < pd.chunks.length →
        hasId u (compoundId pd.document.id j) = true) →
      ∃ u2, storeDocs embed execOk docs u = .ok u2 ∧ idsOf u2 = idsOf u := by
  intro docs
  induction docs with
  | nil =>
    intro tx tx2 u _h _hp
    exact ⟨u, rfl, rfl⟩
  | cons d rest ih =>
    intro tx tx2 u h hp
    simp only [storeDocs] at h ⊢
    split at h
    · exact Except.noConfusion h
    · rename_i mid hmid
      obtain ⟨v2, hvok, hvid⟩ :=
        storeChunks_replay embed execOk d.document.id d.document.url
          (sanitizeUTF8 d.document.title) d.document.metadata d.chunks 0 tx mid u
          hmid (by simpa using hp d (List.mem_cons_self d rest))
      rw [hvok]
      have hpres2 : ∀ pd ∈ rest, ∀ j, j < pd.chunks.length →
          hasId v2 (compoundId pd.document.id j) = true := by
        intro pd hin j hj
        rw [hasId_iff, hvid, ← hasId_iff]
        exact hp pd (List.mem_cons_of_mem d hin) j hj
      obtain ⟨u2, hok, hid⟩ := ih mid tx2 v2 h hpres2
      exact ⟨u2, hok, hid.trans hvid⟩

/-! ### Claims C7, C8 -/

/-- Claim C7: `VectorStore.Store` is all-or-nothing per call.  If any
embedding computation or per-chunk insert fails mid-batch, the call returns
an error and the stored table is unchanged (the deferred rollback discards
the transaction); if no step fails, every chunk of every document in the
batch is committed under its compound id. -/
theorem store_atomicity (embed : Embedder) (execOk : ExecOracle) (table : Table)
    (docs : List ProcessedDocument) :
    ((Store embed execOk table docs).2 ≠ none →
      (Store embed execOk table docs).1 = table) ∧
    ((Store embed execOk table docs).2 = none →
      ∀ pd ∈ docs, ∀ j, j < pd.chunks.length →
        hasId (Store embed execOk table docs).1 (compoundId pd.document.id j) = true) := by
  cases h : storeDocs embed execOk docs table with
  | error e =>
    have e1 : Store embed execOk table docs = (table, some e) := by
      unfold Store; rw [h]
    rw [e1]
    exact ⟨fun _ => rfl, fun hn => absurd hn (by simp)⟩
  | ok t1 =>
    have e1 : Store embed execOk table docs = (t1, none) := by
      unfold Store; rw [h]
    rw [e1]
    obtain ⟨_, hids, _⟩ := storeDocs_ok embed execOk docs table t1 h
    exact ⟨fun hne => absurd rfl hne, fun _ => hids⟩

/-- Claim C7, witness: a successful batch commits both chunks of the
document under their compound ids. -/
theorem store_atomicity_witness :
    (Store demoEmbed demoExec [] [demoPDoc]).2 = none ∧
    hasId (Store demoEmbed demoExec [] [demoPDoc]).1
      (compoundId ("d1".toList) 0) = true ∧
    hasId (Store demoEmbed demoExec [] [demoPDoc]).1
      (compoundId ("d1".toList) 1) = true :=
  ⟨by decide,
   (store_atomicity demoEmbed demoExec [] [demoPDoc]).2 (by decide) demoPDoc
     (List.mem_cons_self demoPDoc []) 0 (by decide),
   (store_atomicity demoEmbed demoExec [] [demoPDoc]).2 (by decide) demoPDoc
     (List.mem_cons_self demoPDoc []) 1 (by decide)⟩

/-- Claim C8: indexing is idempotent per compound id.  If a batch succeeds,
re-running `Store` with the same documents succeeds, every upsert hits the
conflict branch (overwriting content, embedding and metadata), and the
table's id list — hence the set of compound ids — is exactly the one left
by the first run, with no duplicates. -/
theorem store_idempotent (embed : Embedder) (execOk : ExecOracle) (table : Table)
    (docs : List ProcessedDocument)
    (hnodup : (idsOf table).Nodup)
    (h1 : (Store embed execOk table docs).2 = none) :
    (Store embed execOk (Store embed execOk table docs).1 docs).2 = none ∧
    idsOf (Store embed execOk (Store embed execOk table docs).1 docs).1 =
      idsOf (Store embed execOk table docs).1 ∧
    (idsOf (Store embed execOk table docs).1).Nodup := by
  cases h : storeDocs embed execOk docs table with
  | error e =>
    have e1 : (Store embed execOk table docs).2 = some e := by
      unfold Store; rw [h]
    rw [e1] at h1
    exact Option.noConfusion h1
  | ok t1 =>
    have e1 : (Store embed execOk table docs).1 = t1 := by
      unfold Store; rw [h]
    obtain ⟨_, hids, hnod⟩ := storeDocs_ok embed execOk docs table t1 h
    obtain ⟨u2, hok, hid⟩ := storeDocs_replay embed execOk docs table t1 t1 h hids
    have e2a : (Store embed execOk t1 docs).2 = none := by
      unfold Store; rw [hok]
    have e2b : (Store embed execOk t1 docs).1 = u2 := by
      unfold Store; rw [hok]
    rw [e1, e2a, e2b]
    exact ⟨rfl, hid, hnod hnodup⟩

/-- Claim C8, witness: storing the same document twice leaves the id list of
the store exactly as after the first run, without duplicates. -/
theorem store_idempotent_witness :
    (Store demoEmbed demoExec (Store demoEmbed demoExec [] [demoPDoc]).1
      [demoPDoc]).2 = none ∧
    idsOf (Store demoEmbed demoExec (Store demoEmbed demoExec [] [demoPDoc]).1
      [demoPDoc]).1 = idsOf (Store demoEmbed demoExec [] [demoPDoc]).1 ∧
    (idsOf (Store demoEmbed demoExec [] [demoPDoc]).1).Nodup :=
  store_idempotent demoEmbed demoExec [] [demoPDoc] (by decide) (by decide)

